import Mathlib

/-
Verification of the applying/separating aspect classifiers of the
codexhorary investigation scripts.

The embedding models the Python code over exact rationals:
  - normLoop1 and normLoop2 are the two normalization while loops
    (while s > 180: s -= 360 and while s < -180: s += 360);
  - normalizeSigned runs them in sequence, exactly as every classifier does;
  - targets builds the candidate target list for an aspect, in source order;
  - minByAbsDist and closest_target model Python min(targets, key=...) with
    its first-minimum semantics;
  - calculate_authoritative_applying embeds the function of the same name
    from investigate_moon_aspects.py (with its 0.1-day step written 1/10),
    decomposed into the named intermediate quantities auth_sep, auth_target,
    auth_current_orb, auth_future_sep, auth_future_orb, one per source line;
  - analyze_current_system_logic embeds the function of the same name from
    simple_moon_investigation.py: it selects the faster body as lead (ties
    go to the second body) and then runs, line for line, the same block as
    calculate_authoritative_applying with the selected orientation;
  - derivative_method_applying embeds the inline derivative method of
    analyze_aspect_logic (simple_moon_investigation.py lines 96-116), whose
    projected separation is not renormalized;
  - stepLoop1 and stepLoop2 are fuel-indexed versions of the two while
    loops, used to state that the loops terminate.
-/

structure PlanetPos where
  longitude : ℚ
  speed : ℚ

def normLoop1 (x : ℚ) : ℚ :=
  if x > 180 then normLoop1 (x - 360) else x
termination_by (Int.ceil ((x - 180) / 360)).toNat
decreasing_by
  have h1 : (x - 360 - 180) / 360 = (x - 180) / 360 - 1 := by ring
  have h2 : (1 : ℤ) ≤ Int.ceil ((x - 180) / 360) := by
    have : (0 : ℚ) < (x - 180) / 360 := by
      apply div_pos <;> [linarith; norm_num]
    exact Int.ceil_pos.mpr this
  rw [h1, Int.ceil_sub_one]
  omega

def normLoop2 (x : ℚ) : ℚ :=
  if x < -180 then normLoop2 (x + 360) else x
termination_by (Int.ceil ((-180 - x) / 360)).toNat
decreasing_by
  have h1 : (-180 - (x + 360)) / 360 = (-180 - x) / 360 - 1 := by ring
  have h2 : (1 : ℤ) ≤ Int.ceil ((-180 - x) / 360) := by
    have : (0 : ℚ) < (-180 - x) / 360 := by
      apply div_pos <;> [linarith; norm_num]
    exact Int.ceil_pos.mpr this
  rw [h1, Int.ceil_sub_one]
  omega

def normalizeSigned (x : ℚ) : ℚ := normLoop2 (normLoop1 x)

def stepLoop1 : ℕ → ℚ → Option ℚ
  | 0, x => if x > 180 then none else some x
  | n + 1, x => if x > 180 then stepLoop1 n (x - 360) else some x

def stepLoop2 : ℕ → ℚ → Option ℚ
  | 0, x => if x < -180 then none else some x
  | n + 1, x => if x < -180 then stepLoop2 n (x + 360) else some x

def targets (a : ℚ) : List ℚ :=
  if a ≠ 0 ∧ a ≠ 180 then [a, -a, a - 360, -a + 360] else [a, -a]

def minByAbsDist (s : ℚ) : List ℚ → ℚ → ℚ
  | [], best => best
  | t :: ts, best => minByAbsDist s ts (if |s - t| < |s - best| then t else best)

def closest_target (s : ℚ) : List ℚ → ℚ
  | [] => 0
  | t :: ts => minByAbsDist s ts t

def sgn3 (q : ℚ) : ℤ :=
  if q < 0 then -1
  else if 0 < q then 1
  else 0

def auth_sep (moon planet : PlanetPos) : ℚ :=
  normalizeSigned (moon.longitude - planet.longitude)

def auth_target (moon planet : PlanetPos) (aspect_degrees : ℚ) : ℚ :=
  closest_target (auth_sep moon planet) (targets aspect_degrees)

def auth_current_orb (moon planet : PlanetPos) (aspect_degrees : ℚ) : ℚ :=
  |auth_sep moon planet - auth_target moon planet aspect_degrees|

def auth_future_sep (moon planet : PlanetPos) : ℚ :=
  normalizeSigned (auth_sep moon planet + (moon.speed - planet.speed) * (1 / 10))

def auth_future_orb (moon planet : PlanetPos) (aspect_degrees : ℚ) : ℚ :=
  |auth_future_sep moon planet - auth_target moon planet aspect_degrees|

def calculate_authoritative_applying (moon planet : PlanetPos) (aspect_degrees : ℚ) : Bool :=
  decide (auth_future_orb moon planet aspect_degrees < auth_current_orb moon planet aspect_degrees)

def analyze_current_system_logic (moon_lon planet_lon moon_speed planet_speed aspect_degrees : ℚ) : Bool :=
  if |moon_speed| > |planet_speed| then
    calculate_authoritative_applying ⟨moon_lon, moon_speed⟩ ⟨planet_lon, planet_speed⟩ aspect_degrees
  else
    calculate_authoritative_applying ⟨planet_lon, planet_speed⟩ ⟨moon_lon, moon_speed⟩ aspect_degrees

def deriv_sep (moon_lon planet_lon : ℚ) : ℚ := normalizeSigned (moon_lon - planet_lon)

def deriv_target (moon_lon planet_lon aspect_degrees : ℚ) : ℚ :=
  closest_target (deriv_sep moon_lon planet_lon) (targets aspect_degrees)

def deriv_current_dist (moon_lon planet_lon aspect_degrees : ℚ) : ℚ :=
  |deriv_sep moon_lon planet_lon - deriv_target moon_lon planet_lon aspect_degrees|

def deriv_future_dist (moon_lon planet_lon moon_speed planet_speed aspect_degrees : ℚ) : ℚ :=
  |deriv_sep moon_lon planet_lon + (moon_speed - planet_speed) * (1 / 10) -
    deriv_target moon_lon planet_lon aspect_degrees|

def derivative_method_applying (moon_lon planet_lon moon_speed planet_speed aspect_degrees : ℚ) : Bool :=
  decide (deriv_future_dist moon_lon planet_lon moon_speed planet_speed aspect_degrees <
    deriv_current_dist moon_lon planet_lon aspect_degrees)

theorem normLoop1_le (x : ℚ) : normLoop1 x ≤ 180 := by
  induction x using normLoop1.induct with
  | case1 x h ih => rw [normLoop1, if_pos h]; exact ih
  | case2 x h => rw [normLoop1, if_neg h]; exact le_of_not_lt h

theorem normLoop1_gt (x : ℚ) (hx : -180 < x) : -180 < normLoop1 x := by
  induction x using normLoop1.induct with
  | case1 x h ih => rw [normLoop1, if_pos h]; exact ih (by linarith)
  | case2 x h => rw [normLoop1, if_neg h]; exact hx

theorem normLoop1_of_le (x : ℚ) (hx : x ≤ 180) : normLoop1 x = x := by
  rw [normLoop1, if_neg (not_lt.mpr hx)]

theorem normLoop1_congr (x : ℚ) : ∃ k : ℤ, normLoop1 x = x - 360 * k := by
  induction x using normLoop1.induct with
  | case1 x h ih =>
    obtain ⟨k, hk⟩ := ih
    refine ⟨k + 1, ?_⟩
    rw [normLoop1, if_pos h, hk]
    push_cast
    ring
  | case2 x h => exact ⟨0, by rw [normLoop1, if_neg h]; push_cast; ring⟩

theorem normLoop2_ge (x : ℚ) : -180 ≤ normLoop2 x := by
  induction x using normLoop2.induct with
  | case1 x h ih => rw [normLoop2, if_pos h]; exact ih
  | case2 x h => rw [normLoop2, if_neg h]; exact le_of_not_lt h

theorem normLoop2_le (x : ℚ) (hx : x ≤ 180) : normLoop2 x ≤ 180 := by
  induction x using normLoop2.induct with
  | case1 x h ih => rw [normLoop2, if_pos h]; exact ih (by linarith)
  | case2 x h => rw [normLoop2, if_neg h]; exact hx

theorem normLoop2_lt (x : ℚ) (hx : x < 180) : normLoop2 x < 180 := by
  induction x using normLoop2.induct with
  | case1 x h ih => rw [normLoop2, if_pos h]; exact ih (by linarith)
  | case2 x h => rw [normLoop2, if_neg h]; exact hx

theorem normLoop2_of_ge (x : ℚ) (hx : -180 ≤ x) : normLoop2 x = x := by
  rw [normLoop2, if_neg (not_lt.mpr hx)]

theorem normLoop2_congr (x : ℚ) : ∃ k : ℤ, normLoop2 x = x + 360 * k := by
  induction x using normLoop2.induct with
  | case1 x h ih =>
    obtain ⟨k, hk⟩ := ih
    refine ⟨k + 1, ?_⟩
    rw [normLoop2, if_pos h, hk]
    push_cast
    ring
  | case2 x h => exact ⟨0, by rw [normLoop2, if_neg h]; push_cast; ring⟩

theorem ns_ge (x : ℚ) : -180 ≤ normalizeSigned x := normLoop2_ge _

theorem ns_le (x : ℚ) : normalizeSigned x ≤ 180 := normLoop2_le _ (normLoop1_le x)

theorem ns_gt (x : ℚ) (hx : -180 < x) : -180 < normalizeSigned x := by
  unfold normalizeSigned
  rw [normLoop2_of_ge _ (le_of_lt (normLoop1_gt x hx))]
  exact normLoop1_gt x hx

theorem ns_lt (x : ℚ) (hx : x < 180) : normalizeSigned x < 180 := by
  unfold normalizeSigned
  rw [normLoop1_of_le x (le_of_lt hx)]
  exact normLoop2_lt x hx

theorem ns_congr (x : ℚ) : ∃ k : ℤ, normalizeSigned x = x - 360 * k := by
  obtain ⟨k1, hk1⟩ := normLoop1_congr x
  obtain ⟨k2, hk2⟩ := normLoop2_congr (normLoop1 x)
  refine ⟨k1 - k2, ?_⟩
  unfold normalizeSigned
  rw [hk2, hk1]
  push_cast
  ring

theorem ns_of_mem (x : ℚ) (h1 : -180 ≤ x) (h2 : x ≤ 180) : normalizeSigned x = x := by
  unfold normalizeSigned
  rw [normLoop1_of_le x h2, normLoop2_of_ge x h1]

theorem ns_eq_of (x y : ℚ) (hk : ∃ k : ℤ, x - y = 360 * k)
    (h1 : -180 < y) (h2 : y < 180) : normalizeSigned x = y := by
  obtain ⟨k, hk⟩ := hk
  obtain ⟨k0, hk0⟩ := ns_congr x
  have hdiff : normalizeSigned x - y = 360 * ((k : ℚ) - k0) := by
    rw [hk0]
    have : x - y = 360 * (k : ℚ) := hk
    linarith
  have hub : normalizeSigned x - y < 360 := by
    have := ns_le x
    linarith
  have hlb : -360 < normalizeSigned x - y := by
    have := ns_ge x
    linarith
  have hcast1 : ((k - k0 : ℤ) : ℚ) < 1 := by push_cast; nlinarith [hdiff, hub]
  have hcast2 : (-1 : ℚ) < ((k - k0 : ℤ) : ℚ) := by push_cast; nlinarith [hdiff, hlb]
  have hz : (k - k0 : ℤ) = 0 := by
    have ha : (k - k0 : ℤ) < 1 := by exact_mod_cast hcast1
    have hb : (-1 : ℤ) < (k - k0 : ℤ) := by exact_mod_cast hcast2
    omega
  have : ((k : ℚ) - k0) = 0 := by
    have := congrArg (fun z : ℤ => (z : ℚ)) hz
    push_cast at this
    linarith
  linarith [hdiff, this.symm ▸ hdiff]

theorem ns_boundary_values (x : ℚ) (hk : ∃ j : ℤ, x - 180 = 360 * j) :
    (180 ≤ x → normalizeSigned x = 180) ∧ (x ≤ -180 → normalizeSigned x = -180) := by
  obtain ⟨j, hj⟩ := hk
  obtain ⟨k0, hk0⟩ := ns_congr x
  have hdiff : normalizeSigned x - 180 = 360 * ((j : ℚ) - k0) := by
    rw [hk0]; linarith
  have hub : normalizeSigned x - 180 ≤ 0 := by have := ns_le x; linarith
  have hlb : -360 ≤ normalizeSigned x - 180 := by have := ns_ge x; linarith
  have hm1 : ((j - k0 : ℤ) : ℚ) ≤ 0 := by push_cast; nlinarith
  have hm2 : (-1 : ℚ) ≤ ((j - k0 : ℤ) : ℚ) := by push_cast; nlinarith
  have hz : (j - k0 : ℤ) = 0 ∨ (j - k0 : ℤ) = -1 := by
    have ha : (j - k0 : ℤ) ≤ 0 := by exact_mod_cast hm1
    have hb : (-1 : ℤ) ≤ (j - k0 : ℤ) := by exact_mod_cast hm2
    omega
  have hval : normalizeSigned x = 180 ∨ normalizeSigned x = -180 := by
    rcases hz with hz | hz
    · left
      have : ((j : ℚ) - k0) = 0 := by exact_mod_cast hz
      linarith [hdiff]
    · right
      have : ((j : ℚ) - k0) = -1 := by exact_mod_cast hz
      have h360 : (360 : ℚ) * ((j : ℚ) - k0) = -360 := by rw [this]; ring
      linarith [hdiff]
  constructor
  · intro hx
    rcases hval with hv | hv
    · exact hv
    · have : -180 < normalizeSigned x := ns_gt x (by linarith)
      linarith
  · intro hx
    rcases hval with hv | hv
    · have : normalizeSigned x < 180 := ns_lt x (by linarith)
      linarith
    · exact hv

theorem ns_neg (x : ℚ) : normalizeSigned (-x) = -normalizeSigned x := by
  by_cases hb : ∃ j : ℤ, x - 180 = 360 * j
  · obtain ⟨j, hj⟩ := hb
    have hx : x = 180 + 360 * (j : ℚ) := by linarith
    by_cases hjs : 0 ≤ j
    · have h1 : 180 ≤ x := by
        rw [hx]
        have : (0 : ℚ) ≤ (j : ℚ) := by exact_mod_cast hjs
        linarith
      have h2 : -x ≤ -180 := by linarith
      have e1 : normalizeSigned x = 180 := (ns_boundary_values x ⟨j, hj⟩).1 h1
      have e2 : normalizeSigned (-x) = -180 := by
        refine (ns_boundary_values (-x) ⟨-j - 1, ?_⟩).2 h2
        push_cast
        linarith
      rw [e1, e2]
    · push_neg at hjs
      have hj1 : (j : ℚ) ≤ -1 := by
        have : j ≤ -1 := by omega
        exact_mod_cast this
      have h1 : x ≤ -180 := by rw [hx]; linarith
      have h2 : 180 ≤ -x := by linarith
      have e1 : normalizeSigned x = -180 := (ns_boundary_values x ⟨j, hj⟩).2 h1
      have e2 : normalizeSigned (-x) = 180 := by
        refine (ns_boundary_values (-x) ⟨-j - 1, ?_⟩).1 h2
        push_cast
        linarith
      rw [e1, e2]
      norm_num
  · have hne180 : normalizeSigned x ≠ 180 := by
      intro hcontra
      obtain ⟨k0, hk0⟩ := ns_congr x
      exact hb ⟨k0, by rw [hcontra] at hk0; linarith⟩
    have hnem180 : normalizeSigned x ≠ -180 := by
      intro hcontra
      obtain ⟨k0, hk0⟩ := ns_congr x
      refine hb ⟨k0 - 1, ?_⟩
      push_cast
      rw [hcontra] at hk0
      linarith
    have h1 : -180 < -normalizeSigned x := by
      have := ns_le x
      rcases lt_or_eq_of_le this with h | h
      · linarith
      · exact absurd h hne180
    have h2 : -normalizeSigned x < 180 := by
      have := ns_ge x
      rcases lt_or_eq_of_le this with h | h
      · linarith
      · exact absurd h.symm hnem180
    refine ns_eq_of (-x) (-normalizeSigned x) ?_ h1 h2
    obtain ⟨k0, hk0⟩ := ns_congr x
    exact ⟨-k0, by rw [hk0]; push_cast; ring⟩

theorem minByAbsDist_le_init (s : ℚ) (l : List ℚ) (b : ℚ) :
    |s - minByAbsDist s l b| ≤ |s - b| := by
  induction l generalizing b with
  | nil => rw [minByAbsDist]
  | cons t ts ih =>
    rw [minByAbsDist]
    refine le_trans (ih _) ?_
    by_cases h : |s - t| < |s - b|
    · rw [if_pos h]; exact le_of_lt h
    · rw [if_neg h]

theorem minByAbsDist_le_mem (s : ℚ) (l : List ℚ) (b t : ℚ) (ht : t ∈ l) :
    |s - minByAbsDist s l b| ≤ |s - t| := by
  induction l generalizing b with
  | nil => cases ht
  | cons u ts ih =>
    rw [minByAbsDist]
    rcases List.mem_cons.mp ht with h | h
    · subst h
      refine le_trans (minByAbsDist_le_init s ts _) ?_
      by_cases hc : |s - t| < |s - b|
      · rw [if_pos hc]
      · rw [if_neg hc]
        exact le_of_not_lt hc
    · exact ih _ h

theorem closest_target_min (s t0 : ℚ) (ts : List ℚ) (t : ℚ) (ht : t ∈ t0 :: ts) :
    |s - closest_target s (t0 :: ts)| ≤ |s - t| := by
  rw [closest_target]
  rcases List.mem_cons.mp ht with h | h
  · subst h; exact minByAbsDist_le_init s ts t
  · exact minByAbsDist_le_mem s ts t0 t h

theorem targets_of_ne (a : ℚ) (h0 : a ≠ 0) (h180 : a ≠ 180) :
    targets a = [a, -a, a - 360, -a + 360] := by
  rw [targets, if_pos ⟨h0, h180⟩]

theorem closest_eq (s a : ℚ) (hs1 : -180 ≤ s) (hs2 : s ≤ 180)
    (ha1 : 0 ≤ a) (ha2 : a ≤ 180) :
    closest_target s (targets a) = if s < 0 then -a else a := by
  by_cases h0 : a = 0
  · subst h0
    rw [targets, if_neg (by norm_num), closest_target, minByAbsDist, minByAbsDist]
    simp
  by_cases h180 : a = 180
  · subst h180
    rw [targets, if_neg (by norm_num), closest_target, minByAbsDist, minByAbsDist]
    have e1 : |s - 180| = 180 - s := by
      rw [abs_of_nonpos (by linarith)]; ring
    have e2 : |s - (-180)| = s + 180 := by
      rw [abs_of_nonneg (by linarith)]; ring
    rcases lt_or_ge s 0 with hlt | hge
    · rw [if_pos (by rw [e1, e2]; linarith), if_pos hlt]
    · rw [if_neg (by rw [e1, e2]; linarith), if_neg (not_lt.mpr hge)]
  have hA : 0 < a := lt_of_le_of_ne ha1 (Ne.symm h0)
  have hB : a < 180 := lt_of_le_of_ne ha2 h180
  rw [targets_of_ne a h0 h180, closest_target, minByAbsDist, minByAbsDist, minByAbsDist,
    minByAbsDist]
  rcases lt_or_ge s 0 with hlt | hge
  · have c1 : |s - -a| < |s - a| := by
      rw [sub_neg_eq_add, abs_of_nonpos (show s - a ≤ 0 by linarith)]
      rw [abs_lt]
      constructor <;> linarith
    rw [if_pos c1]
    have c2 : ¬(|s - (a - 360)| < |s - -a|) := by
      refine not_lt.mpr ?_
      rw [sub_neg_eq_add, abs_of_nonneg (show (0 : ℚ) ≤ s - (a - 360) by linarith)]
      exact abs_le.mpr ⟨by linarith, by linarith⟩
    rw [if_neg c2]
    have c3 : ¬(|s - (-a + 360)| < |s - -a|) := by
      refine not_lt.mpr ?_
      rw [sub_neg_eq_add, abs_of_nonpos (show s - (-a + 360) ≤ 0 by linarith)]
      exact abs_le.mpr ⟨by linarith, by linarith⟩
    rw [if_neg c3, if_pos hlt]
  · have c1 : ¬(|s - -a| < |s - a|) := by
      refine not_lt.mpr ?_
      rw [sub_neg_eq_add, abs_of_nonneg (show (0 : ℚ) ≤ s + a by linarith)]
      exact abs_le.mpr ⟨by linarith, by linarith⟩
    rw [if_neg c1]
    have c2 : ¬(|s - (a - 360)| < |s - a|) := by
      refine not_lt.mpr ?_
      rw [abs_of_nonneg (show (0 : ℚ) ≤ s - (a - 360) by linarith)]
      exact abs_le.mpr ⟨by linarith, by linarith⟩
    rw [if_neg c2]
    have c3 : ¬(|s - (-a + 360)| < |s - a|) := by
      refine not_lt.mpr ?_
      rw [abs_of_nonpos (show s - (-a + 360) ≤ 0 by linarith)]
      exact abs_le.mpr ⟨by linarith, by linarith⟩
    rw [if_neg c3, if_neg (not_lt.mpr hge)]

theorem sgn3_pos {q : ℚ} (h : 0 < q) : sgn3 q = 1 := by
  unfold sgn3
  rw [if_neg (by linarith), if_pos h]

theorem sgn3_neg {q : ℚ} (h : q < 0) : sgn3 q = -1 := by
  unfold sgn3
  rw [if_pos h]

theorem sgn3_zero : sgn3 0 = 0 := by
  unfold sgn3
  norm_num

theorem sgn3_eq_neg_iff (v u : ℚ) (hu : u ≠ 0) : sgn3 v = -sgn3 u ↔ v * u < 0 := by
  rcases lt_trichotomy v 0 with hv | hv | hv <;> rcases lt_trichotomy u 0 with hw | hw | hw
  · rw [sgn3_neg hv, sgn3_neg hw]
    norm_num
    nlinarith
  · exact absurd hw hu
  · rw [sgn3_neg hv, sgn3_pos hw]
    norm_num
    exact mul_neg_of_neg_of_pos hv hw
  · subst hv
    rw [sgn3_zero, sgn3_neg hw]
    norm_num
  · exact absurd hw hu
  · subst hv
    rw [sgn3_zero, sgn3_pos hw]
    norm_num
  · rw [sgn3_pos hv, sgn3_neg hw]
    norm_num
    exact mul_neg_of_pos_of_neg hv hw
  · exact absurd hw hu
  · rw [sgn3_pos hv, sgn3_pos hw]
    norm_num
    nlinarith

theorem abs_step_lt_iff (u w : ℚ) (hu : u ≠ 0) (hw : |w| < |u|) : |u + w| < |u| ↔ w * u < 0 := by
  rcases lt_trichotomy u 0 with h | h | h
  · rw [abs_of_neg h] at hw
    have hw' := abs_lt.mp hw
    have h1 : u + w < 0 := by linarith [hw'.2]
    rw [abs_of_neg h1, abs_of_neg h]
    constructor
    · intro hlt
      have : 0 < w := by linarith
      exact mul_neg_of_pos_of_neg this h
    · intro hlt
      have : 0 < w := by nlinarith
      linarith
  · exact absurd h hu
  · rw [abs_of_pos h] at hw
    have hw' := abs_lt.mp hw
    have h1 : 0 < u + w := by linarith [hw'.1]
    rw [abs_of_pos h1, abs_of_pos h]
    constructor
    · intro hlt
      have : w < 0 := by linarith
      exact mul_neg_of_neg_of_pos this h
    · intro hlt
      have : w < 0 := by nlinarith
      linarith

theorem mul_tenth_neg_iff (x : ℚ) : x * (1 / 10) < 0 ↔ x < 0 := by
  constructor <;> intro h <;> linarith

theorem auth_eval (ml pl ms ps a : ℚ)
    (h1 : -180 ≤ ml - pl) (h2 : ml - pl ≤ 180)
    (ha1 : 0 ≤ a) (ha2 : a ≤ 180)
    (h3 : -180 ≤ ml - pl + (ms - ps) * (1 / 10))
    (h4 : ml - pl + (ms - ps) * (1 / 10) ≤ 180) :
    auth_sep ⟨ml, ms⟩ ⟨pl, ps⟩ = ml - pl ∧
    auth_target ⟨ml, ms⟩ ⟨pl, ps⟩ a = (if ml - pl < 0 then -a else a) ∧
    auth_future_sep ⟨ml, ms⟩ ⟨pl, ps⟩ = ml - pl + (ms - ps) * (1 / 10) ∧
    calculate_authoritative_applying ⟨ml, ms⟩ ⟨pl, ps⟩ a =
      decide (|ml - pl + (ms - ps) * (1 / 10) - (if ml - pl < 0 then -a else a)| <
        |ml - pl - (if ml - pl < 0 then -a else a)|) := by
  have hsep : auth_sep ⟨ml, ms⟩ ⟨pl, ps⟩ = ml - pl := ns_of_mem (ml - pl) h1 h2
  have htgt : auth_target ⟨ml, ms⟩ ⟨pl, ps⟩ a = (if ml - pl < 0 then -a else a) := by
    rw [auth_target, hsep]
    exact closest_eq (ml - pl) a h1 h2 ha1 ha2
  have hfut : auth_future_sep ⟨ml, ms⟩ ⟨pl, ps⟩ = ml - pl + (ms - ps) * (1 / 10) := by
    rw [auth_future_sep, hsep]
    exact ns_of_mem _ h3 h4
  refine ⟨hsep, htgt, hfut, ?_⟩
  rw [calculate_authoritative_applying, auth_future_orb, auth_current_orb, hsep, htgt, hfut]

theorem deriv_eval (ml pl ms ps a : ℚ)
    (h1 : -180 ≤ ml - pl) (h2 : ml - pl ≤ 180)
    (ha1 : 0 ≤ a) (ha2 : a ≤ 180) :
    deriv_sep ml pl = ml - pl ∧
    deriv_target ml pl a = (if ml - pl < 0 then -a else a) ∧
    derivative_method_applying ml pl ms ps a =
      decide (|ml - pl + (ms - ps) * (1 / 10) - (if ml - pl < 0 then -a else a)| <
        |ml - pl - (if ml - pl < 0 then -a else a)|) := by
  have hsep : deriv_sep ml pl = ml - pl := ns_of_mem (ml - pl) h1 h2
  have htgt : deriv_target ml pl a = (if ml - pl < 0 then -a else a) := by
    rw [deriv_target, hsep]
    exact closest_eq (ml - pl) a h1 h2 ha1 ha2
  refine ⟨hsep, htgt, ?_⟩
  rw [derivative_method_applying, deriv_future_dist, deriv_current_dist, hsep, htgt]

theorem auth_swap (m p : PlanetPos) (a : ℚ) (ha1 : 0 ≤ a) (ha2 : a ≤ 180)
    (hs : auth_sep m p ≠ 0) :
    calculate_authoritative_applying p m a = calculate_authoritative_applying m p a := by
  have hnegarg : p.longitude - m.longitude = -(m.longitude - p.longitude) := by ring
  have hsep : auth_sep p m = -auth_sep m p := by
    unfold auth_sep
    rw [hnegarg, ns_neg]
  set s := auth_sep m p with hs_def
  have hr1 : -180 ≤ s := ns_ge _
  have hr2 : s ≤ 180 := ns_le _
  have hct : auth_target m p a = if s < 0 then -a else a := by
    rw [auth_target]
    exact closest_eq s a hr1 hr2 ha1 ha2
  have hct' : auth_target p m a = -(auth_target m p a) := by
    rw [auth_target, hsep, closest_eq (-s) a (by linarith) (by linarith) ha1 ha2, hct]
    rcases lt_trichotomy s 0 with h | h | h
    · rw [if_pos h, if_neg (by linarith : ¬(-s < 0))]
      ring
    · exact absurd h hs
    · rw [if_neg (by linarith : ¬(s < 0)), if_pos (by linarith : -s < 0)]
  have horb : auth_current_orb p m a = auth_current_orb m p a := by
    rw [auth_current_orb, auth_current_orb, hsep, hct',
      show -s - -(auth_target m p a) = -(s - auth_target m p a) by ring, abs_neg]
  have hfsep : auth_future_sep p m = -(auth_future_sep m p) := by
    rw [auth_future_sep, auth_future_sep, hsep,
      show -s + (p.speed - m.speed) * (1 / 10) = -(s + (m.speed - p.speed) * (1 / 10)) by ring]
    exact ns_neg _
  have hforb : auth_future_orb p m a = auth_future_orb m p a := by
    rw [auth_future_orb, auth_future_orb, hfsep, hct',
      show -auth_future_sep m p - -(auth_target m p a) =
        -(auth_future_sep m p - auth_target m p a) by ring, abs_neg]
  rw [calculate_authoritative_applying, calculate_authoritative_applying, horb, hforb]

/-- Claim C1, counterexample: at exact conjunction of longitudes (normalized
separation 0) with the second body faster, the enhanced method (lead = faster
body) returns false while the authoritative method (lead = first body) returns
true, so swapping the lead role does change the boolean result. -/
theorem c1_swap_flips_at_conjunction :
    analyze_current_system_logic 100 100 1 (-2) 60 = false ∧
    calculate_authoritative_applying ⟨100, 1⟩ ⟨100, -2⟩ 60 = true := by
  constructor
  · rw [analyze_current_system_logic, if_neg (by norm_num : ¬(|(1 : ℚ)| > |(-2 : ℚ)|))]
    obtain ⟨hsep, htgt, hfut, happ⟩ :=
      auth_eval 100 100 (-2) 1 60 (by norm_num) (by norm_num) (by norm_num) (by norm_num)
        (by norm_num) (by norm_num)
    rw [happ, if_neg (by norm_num : ¬((100 : ℚ) - 100 < 0)), decide_eq_false_iff_not]
    norm_num [abs_of_nonneg, abs_of_nonpos]
  · obtain ⟨hsep, htgt, hfut, happ⟩ :=
      auth_eval 100 100 1 (-2) 60 (by norm_num) (by norm_num) (by norm_num) (by norm_num)
        (by norm_num) (by norm_num)
    rw [happ, if_neg (by norm_num : ¬((100 : ℚ) - 100 < 0)), decide_eq_true_eq]
    norm_num [abs_of_nonneg, abs_of_nonpos]

/-- Claim C1 (amended): whenever the normalized signed separation of the two
longitudes is nonzero, the enhanced generic method (lead = body with larger
absolute speed, ties falling back to the second body) returns the same
applying classification as the authoritative method with lead/other fixed to
call order; only at exactly zero normalized separation can swapping the lead
role change the boolean result. -/
theorem c1_enhanced_matches_authoritative_off_conjunction
    (moon_lon planet_lon moon_speed planet_speed a : ℚ)
    (ha1 : 0 ≤ a) (ha2 : a ≤ 180)
    (hs : normalizeSigned (moon_lon - planet_lon) ≠ 0) :
    analyze_current_system_logic moon_lon planet_lon moon_speed planet_speed a =
      calculate_authoritative_applying ⟨moon_lon, moon_speed⟩ ⟨planet_lon, planet_speed⟩ a := by
  rw [analyze_current_system_logic]
  by_cases hf : |moon_speed| > |planet_speed|
  · rw [if_pos hf]
  · rw [if_neg hf]
    exact auth_swap ⟨moon_lon, moon_speed⟩ ⟨planet_lon, planet_speed⟩ a ha1 ha2 hs

/-- Witness for C1 at a concrete input exercising the swapped-lead branch. -/
theorem c1_witness :
    ((0 : ℚ) ≤ 60 ∧ (60 : ℚ) ≤ 180 ∧ normalizeSigned ((100 : ℚ) - 40) ≠ 0) ∧
    analyze_current_system_logic 100 40 1 2 60 =
      calculate_authoritative_applying ⟨100, 1⟩ ⟨40, 2⟩ 60 := by
  have hne : normalizeSigned ((100 : ℚ) - 40) ≠ 0 := by
    rw [show (100 : ℚ) - 40 = 60 by norm_num, ns_of_mem 60 (by norm_num) (by norm_num)]
    norm_num
  exact ⟨⟨by norm_num, by norm_num, hne⟩,
    c1_enhanced_matches_authoritative_off_conjunction 100 40 1 2 60 (by norm_num) (by norm_num) hne⟩

/-- Claim C2, counterexample: with zero relative speed the preconditions hold
(current orb nonzero, the orb cannot cross zero during the step), the sign of
the relative speed (0) differs from the sign of the signed offset from the
target, yet the projection-based classification returns false, not true. -/
theorem c2_sign_differs_fails_at_zero_speed :
    auth_current_orb ⟨100, 5⟩ ⟨50, 5⟩ 60 ≠ 0 ∧
    |((5 : ℚ) - 5) * (1 / 10)| < auth_current_orb ⟨100, 5⟩ ⟨50, 5⟩ 60 ∧
    -180 ≤ auth_sep ⟨100, 5⟩ ⟨50, 5⟩ + ((5 : ℚ) - 5) * (1 / 10) ∧
    auth_sep ⟨100, 5⟩ ⟨50, 5⟩ + ((5 : ℚ) - 5) * (1 / 10) ≤ 180 ∧
    sgn3 ((5 : ℚ) - 5) ≠ sgn3 (auth_sep ⟨100, 5⟩ ⟨50, 5⟩ - auth_target ⟨100, 5⟩ ⟨50, 5⟩ 60) ∧
    calculate_authoritative_applying ⟨100, 5⟩ ⟨50, 5⟩ 60 = false := by
  obtain ⟨hsep, htgt, hfut, happ⟩ :=
    auth_eval 100 50 5 5 60 (by norm_num) (by norm_num) (by norm_num) (by norm_num)
      (by norm_num) (by norm_num)
  have horb : auth_current_orb ⟨100, 5⟩ ⟨50, 5⟩ 60 = 10 := by
    rw [auth_current_orb, hsep, htgt, if_neg (by norm_num : ¬((100 : ℚ) - 50 < 0))]
    norm_num
  have hu : auth_sep ⟨100, 5⟩ ⟨50, 5⟩ - auth_target ⟨100, 5⟩ ⟨50, 5⟩ 60 = -10 := by
    rw [hsep, htgt, if_neg (by norm_num : ¬((100 : ℚ) - 50 < 0))]
    norm_num
  refine ⟨by rw [horb]; norm_num, by rw [horb]; norm_num [abs_of_nonneg, abs_of_nonpos],
    by rw [hsep]; norm_num, by rw [hsep]; norm_num, ?_, ?_⟩
  · rw [show (5 : ℚ) - 5 = 0 by norm_num, sgn3_zero, hu,
      sgn3_neg (by norm_num : (-10 : ℚ) < 0)]
    norm_num
  · rw [happ, if_neg (by norm_num : ¬((100 : ℚ) - 50 < 0)), decide_eq_false_iff_not]
    norm_num [abs_of_nonneg, abs_of_nonpos]

/-- Claim C2 (amended): under the spec preconditions (nonzero current orb and
a step small enough that the projected separation neither crosses the target
nor wraps out of the normalized range), the projection-based classification
returns applying = true exactly when the sign of the relative speed is the
exact opposite of the sign of signedSeparation0 - target0; at relative speed
exactly 0 both signs rules disagree with the claim as frozen, and the code
returns false. -/
theorem c2_applying_iff_opposite_sign (m p : PlanetPos) (a : ℚ)
    (h1 : auth_current_orb m p a ≠ 0)
    (h2 : |(m.speed - p.speed) * (1 / 10)| < auth_current_orb m p a)
    (h3 : -180 ≤ auth_sep m p + (m.speed - p.speed) * (1 / 10))
    (h4 : auth_sep m p + (m.speed - p.speed) * (1 / 10) ≤ 180) :
    (calculate_authoritative_applying m p a = true ↔
      sgn3 (m.speed - p.speed) = -sgn3 (auth_sep m p - auth_target m p a)) := by
  set u := auth_sep m p - auth_target m p a with hu_def
  set w := (m.speed - p.speed) * (1 / 10) with hw_def
  have horb : auth_current_orb m p a = |u| := rfl
  have hu : u ≠ 0 := by
    intro h
    apply h1
    rw [horb, h, abs_zero]
  have hw : |w| < |u| := by rw [← horb]; exact h2
  have hfut : auth_future_sep m p = auth_sep m p + w := ns_of_mem _ h3 h4
  have hstep : auth_sep m p + w - auth_target m p a = u + w := by rw [hu_def]; ring
  have happ : calculate_authoritative_applying m p a = decide (|u + w| < |u|) := by
    rw [calculate_authoritative_applying, auth_future_orb, hfut, hstep, horb]
  rw [happ, decide_eq_true_eq, abs_step_lt_iff u w hu hw,
    sgn3_eq_neg_iff (m.speed - p.speed) u hu]
  have hwu : w * u = ((m.speed - p.speed) * u) * (1 / 10) := by rw [hw_def]; ring
  constructor
  · intro h
    rw [hwu] at h
    exact (mul_tenth_neg_iff _).mp h
  · intro h
    rw [hwu]
    exact (mul_tenth_neg_iff _).mpr h

/-- Witness for C2 at a concrete input with nonzero relative speed. -/
theorem c2_witness :
    (auth_current_orb ⟨100, 5⟩ ⟨50, 1⟩ 60 ≠ 0 ∧
     |((5 : ℚ) - 1) * (1 / 10)| < auth_current_orb ⟨100, 5⟩ ⟨50, 1⟩ 60 ∧
     -180 ≤ auth_sep ⟨100, 5⟩ ⟨50, 1⟩ + ((5 : ℚ) - 1) * (1 / 10) ∧
     auth_sep ⟨100, 5⟩ ⟨50, 1⟩ + ((5 : ℚ) - 1) * (1 / 10) ≤ 180) ∧
    (calculate_authoritative_applying ⟨100, 5⟩ ⟨50, 1⟩ 60 = true ↔
      sgn3 ((5 : ℚ) - 1) = -sgn3 (auth_sep ⟨100, 5⟩ ⟨50, 1⟩ - auth_target ⟨100, 5⟩ ⟨50, 1⟩ 60)) := by
  obtain ⟨hsep, htgt, hfut, happ⟩ :=
    auth_eval 100 50 5 1 60 (by norm_num) (by norm_num) (by norm_num) (by norm_num)
      (by norm_num) (by norm_num)
  have horb : auth_current_orb ⟨100, 5⟩ ⟨50, 1⟩ 60 = 10 := by
    rw [auth_current_orb, hsep, htgt, if_neg (by norm_num : ¬((100 : ℚ) - 50 < 0))]
    norm_num
  refine ⟨⟨by rw [horb]; norm_num, by rw [horb]; norm_num [abs_of_nonneg, abs_of_nonpos],
    by rw [hsep]; norm_num, by rw [hsep]; norm_num⟩, ?_⟩
  exact c2_applying_iff_opposite_sign ⟨100, 5⟩ ⟨50, 1⟩ 60 (by rw [horb]; norm_num)
    (by rw [horb]; norm_num [abs_of_nonneg, abs_of_nonpos]) (by rw [hsep]; norm_num)
    (by rw [hsep]; norm_num)

/-- Claim C3, counterexample: the code's normalization maps -180 to -180, not
to 180 as the claim states, and periodicity fails across that boundary since
-180 + 360 normalizes to 180. -/
theorem c3_neg180_maps_to_neg180 :
    normalizeSigned (-180) = -180 ∧ ((-180 : ℚ) ≠ 180) ∧
    normalizeSigned ((-180 : ℚ) + 360) ≠ normalizeSigned (-180) := by
  have e1 : normalizeSigned (-180 : ℚ) = -180 := ns_of_mem _ (by norm_num) (by norm_num)
  have e2 : normalizeSigned ((-180 : ℚ) + 360) = 180 := by
    rw [show (-180 : ℚ) + 360 = 180 by norm_num]
    exact ns_of_mem _ (by norm_num) (by norm_num)
  refine ⟨e1, by norm_num, ?_⟩
  rw [e1, e2]
  norm_num

/-- Claim C3 (amended): the normalization lands in the closed interval
[-180, 180] (both endpoints occur); 180 maps to 180 but -180 maps to -180;
and the 360-periodicity holds for every angle not congruent to 180 modulo
360, the congruence class where the two boundary representatives break it. -/
theorem c3_normalization_range_and_periodicity (a : ℚ) (k : ℤ)
    (h : ¬ ∃ j : ℤ, a - 180 = 360 * j) :
    (∀ b : ℚ, -180 ≤ normalizeSigned b ∧ normalizeSigned b ≤ 180) ∧
    normalizeSigned (a + 360 * (k : ℚ)) = normalizeSigned a ∧
    normalizeSigned 180 = 180 ∧ normalizeSigned (-180) = -180 := by
  refine ⟨fun b => ⟨ns_ge b, ns_le b⟩, ?_, ns_of_mem _ (by norm_num) (by norm_num),
    ns_of_mem _ (by norm_num) (by norm_num)⟩
  obtain ⟨k0, hk0⟩ := ns_congr a
  have hlt : normalizeSigned a < 180 := by
    rcases lt_or_eq_of_le (ns_le a) with hlt | heq
    · exact hlt
    · exact absurd ⟨k0, by rw [heq] at hk0; linarith⟩ h
  have hgt : -180 < normalizeSigned a := by
    rcases lt_or_eq_of_le (ns_ge a) with hlt | heq
    · exact hlt
    · refine absurd ⟨k0 - 1, ?_⟩ h
      push_cast
      rw [← heq] at hk0
      linarith
  refine ns_eq_of (a + 360 * (k : ℚ)) (normalizeSigned a) ⟨k + k0, ?_⟩ hgt hlt
  push_cast
  linarith

/-- Witness for C3 at angle 100 and period shift k = 1. -/
theorem c3_witness :
    (¬ ∃ j : ℤ, (100 : ℚ) - 180 = 360 * j) ∧
    ((∀ b : ℚ, -180 ≤ normalizeSigned b ∧ normalizeSigned b ≤ 180) ∧
     normalizeSigned ((100 : ℚ) + 360 * ((1 : ℤ) : ℚ)) = normalizeSigned 100 ∧
     normalizeSigned 180 = 180 ∧ normalizeSigned (-180) = -180) := by
  have hne : ¬ ∃ j : ℤ, (100 : ℚ) - 180 = 360 * j := by
    rintro ⟨j, hj⟩
    have h9 : ((9 * j : ℤ) : ℚ) = -2 := by push_cast; linarith
    have h9' : (9 * j : ℤ) = -2 := by exact_mod_cast h9
    omega
  exact ⟨hne, c3_normalization_range_and_periodicity 100 1 hne⟩

/-- Claim C4, counterexample: for an exact separation of 180 the resolved
target list is the pair 180 and -180, which has two distinct values rather
than one, and its member -180 lies outside the claimed range. -/
theorem c4_opposition_targets_unnormalized :
    targets 180 = [180, -180] ∧ ((-180 : ℚ) ∈ targets 180) ∧
    ¬(-180 < (-180 : ℚ)) ∧ (targets 180).dedup.length = 2 ∧
    (targets 180).dedup.length ≠ 1 := by
  have ht : targets 180 = [180, -180] := by
    rw [targets, if_neg (by norm_num)]
  refine ⟨ht, by rw [ht]; simp, by norm_num, ?_, ?_⟩
  · rw [ht]
    rw [List.dedup_cons_of_not_mem (by norm_num), List.dedup_cons_of_not_mem (by simp),
      List.dedup_nil]
    rfl
  · rw [ht]
    rw [List.dedup_cons_of_not_mem (by norm_num), List.dedup_cons_of_not_mem (by simp),
      List.dedup_nil]
    norm_num

/-- Claim C4 (amended): the resolved target list is not reduced to normalized
representatives: for separation 0 it deduplicates to the single value 0, for
separation 180 it keeps the two distinct values 180 and -180, and for a
separation strictly between 0 and 180 it holds four distinct candidates, of
which exactly the two values d and -d lie in the claimed range. -/
theorem c4_target_multiplicities (a : ℚ) (h0 : 0 < a) (h180 : a < 180) :
    (targets 0).dedup = [0] ∧
    (targets 180).dedup = [180, -180] ∧
    (targets a).dedup.length = 4 ∧
    (targets a).filter (fun t => decide (-180 < t ∧ t ≤ 180)) = [a, -a] := by
  have hset : targets a = [a, -a, a - 360, -a + 360] :=
    targets_of_ne a (ne_of_gt h0) (ne_of_lt h180)
  refine ⟨?_, ?_, ?_, ?_⟩
  · rw [targets, if_neg (by norm_num)]
    norm_num
  · rw [targets, if_neg (by norm_num)]
    rw [List.dedup_cons_of_not_mem (by norm_num), List.dedup_cons_of_not_mem (by simp),
      List.dedup_nil]
  · rw [hset]
    have hnodup : ([a, -a, a - 360, -a + 360] : List ℚ).Nodup := by
      refine List.nodup_cons.mpr ⟨?_, List.nodup_cons.mpr ⟨?_,
        List.nodup_cons.mpr ⟨?_, List.nodup_singleton _⟩⟩⟩
      · intro hmem
        rcases List.mem_cons.mp hmem with h | hmem
        · linarith
        rcases List.mem_cons.mp hmem with h | hmem
        · linarith
        rcases List.mem_cons.mp hmem with h | hmem
        · linarith
        · exact List.not_mem_nil _ hmem
      · intro hmem
        rcases List.mem_cons.mp hmem with h | hmem
        · linarith
        rcases List.mem_cons.mp hmem with h | hmem
        · linarith
        · exact List.not_mem_nil _ hmem
      · intro hmem
        rcases List.mem_cons.mp hmem with h | hmem
        · linarith
        · exact List.not_mem_nil _ hmem
    rw [List.dedup_eq_self.mpr hnodup]
    rfl
  · rw [hset]
    rw [List.filter_cons_of_pos (by rw [decide_eq_true_eq]; exact ⟨by linarith, by linarith⟩),
      List.filter_cons_of_pos (by rw [decide_eq_true_eq]; exact ⟨by linarith, by linarith⟩),
      List.filter_cons_of_neg (by rw [decide_eq_true_eq]; push_neg; intro h; linarith),
      List.filter_cons_of_neg (by rw [decide_eq_true_eq]; push_neg; intro h; linarith),
      List.filter_nil]

/-- Witness for C4 at exact separation 60. -/
theorem c4_witness :
    ((0 : ℚ) < 60 ∧ (60 : ℚ) < 180) ∧
    ((targets 0).dedup = [0] ∧
     (targets 180).dedup = [180, -180] ∧
     (targets 60).dedup.length = 4 ∧
     (targets 60).filter (fun t => decide (-180 < t ∧ t ≤ 180)) = [60, -60]) :=
  ⟨⟨by norm_num, by norm_num⟩, c4_target_multiplicities 60 (by norm_num) (by norm_num)⟩

/-- Claim C5, counterexample: near the 180-degree wrap the inline derivative
method of analyze_aspect_logic, which does not renormalize the projected
separation, classifies the aspect as applying while the renormalizing
authoritative computation on the same input classifies it as separating; its
projected orb differs from the renormalized projected orb. -/
theorem c5_derivative_method_skips_renormalization :
    derivative_method_applying ((359 : ℚ) / 2) 0 7 0 180 = true ∧
    calculate_authoritative_applying ⟨(359 : ℚ) / 2, 7⟩ ⟨0, 0⟩ 180 = false ∧
    deriv_future_dist ((359 : ℚ) / 2) 0 7 0 180 ≠
      auth_future_orb ⟨(359 : ℚ) / 2, 7⟩ ⟨0, 0⟩ 180 := by
  obtain ⟨hdsep, hdtgt, hdapp⟩ :=
    deriv_eval ((359 : ℚ) / 2) 0 7 0 180 (by norm_num) (by norm_num) (by norm_num) (by norm_num)
  have hsep : auth_sep ⟨(359 : ℚ) / 2, 7⟩ ⟨0, 0⟩ = (359 : ℚ) / 2 := by
    show normalizeSigned ((359 : ℚ) / 2 - 0) = (359 : ℚ) / 2
    rw [ns_of_mem ((359 : ℚ) / 2 - 0) (by norm_num) (by norm_num)]
    norm_num
  have htgt : auth_target ⟨(359 : ℚ) / 2, 7⟩ ⟨0, 0⟩ 180 = 180 := by
    rw [auth_target, hsep,
      closest_eq ((359 : ℚ) / 2) 180 (by norm_num) (by norm_num) (by norm_num) (by norm_num),
      if_neg (by norm_num)]
  have hfs : auth_future_sep ⟨(359 : ℚ) / 2, 7⟩ ⟨0, 0⟩ = -899 / 5 := by
    rw [auth_future_sep, hsep]
    show normalizeSigned ((359 : ℚ) / 2 + ((7 : ℚ) - 0) * (1 / 10)) = -899 / 5
    rw [show (359 : ℚ) / 2 + ((7 : ℚ) - 0) * (1 / 10) = 901 / 5 by norm_num]
    refine ns_eq_of (901 / 5) (-899 / 5) ⟨1, ?_⟩ (by norm_num) (by norm_num)
    push_cast
    norm_num
  have hforb : auth_future_orb ⟨(359 : ℚ) / 2, 7⟩ ⟨0, 0⟩ 180 = 1799 / 5 := by
    rw [auth_future_orb, hfs, htgt]
    norm_num [abs_of_nonpos]
  have hcorb : auth_current_orb ⟨(359 : ℚ) / 2, 7⟩ ⟨0, 0⟩ 180 = 1 / 2 := by
    rw [auth_current_orb, hsep, htgt]
    norm_num [abs_of_nonpos]
  refine ⟨?_, ?_, ?_⟩
  · rw [hdapp, if_neg (by norm_num : ¬((359 : ℚ) / 2 - 0 < 0)), decide_eq_true_eq]
    norm_num [abs_of_nonneg, abs_of_nonpos]
  · rw [calculate_authoritative_applying, hforb, hcorb, decide_eq_false_iff_not]
    norm_num
  · have hd : deriv_future_dist ((359 : ℚ) / 2) 0 7 0 180 = 1 / 5 := by
      rw [deriv_future_dist, hdsep, hdtgt, if_neg (by norm_num)]
      norm_num [abs_of_nonneg]
    rw [hd, hforb]
    norm_num

/-- Claim C5 (amended): calculate_authoritative_applying and
analyze_current_system_logic compute the projected orb against the target
resolved in step 1, with the projected separation renormalized first; the
inline derivative method of analyze_aspect_logic also reuses that same target
but omits the renormalization, so it agrees with the renormalized projected
orb, and with the authoritative classification, exactly when the projected
separation already lies in the normalized range. -/
theorem c5_projected_orb_formula (m p : PlanetPos) (a : ℚ)
    (h3 : -180 ≤ auth_sep m p + (m.speed - p.speed) * (1 / 10))
    (h4 : auth_sep m p + (m.speed - p.speed) * (1 / 10) ≤ 180) :
    auth_future_orb m p a =
      |normalizeSigned (auth_sep m p + (m.speed - p.speed) * (1 / 10)) - auth_target m p a| ∧
    deriv_future_dist m.longitude p.longitude m.speed p.speed a =
      |auth_sep m p + (m.speed - p.speed) * (1 / 10) - auth_target m p a| ∧
    deriv_future_dist m.longitude p.longitude m.speed p.speed a = auth_future_orb m p a ∧
    derivative_method_applying m.longitude p.longitude m.speed p.speed a =
      calculate_authoritative_applying m p a ∧
    (analyze_current_system_logic m.longitude p.longitude m.speed p.speed a =
        calculate_authoritative_applying m p a ∨
      analyze_current_system_logic m.longitude p.longitude m.speed p.speed a =
        calculate_authoritative_applying p m a) := by
  have hd1 : deriv_sep m.longitude p.longitude = auth_sep m p := rfl
  have hd2 : deriv_target m.longitude p.longitude a = auth_target m p a := rfl
  have hfd : deriv_future_dist m.longitude p.longitude m.speed p.speed a =
      |auth_sep m p + (m.speed - p.speed) * (1 / 10) - auth_target m p a| := by
    rw [deriv_future_dist, hd1, hd2]
  have hfo : auth_future_orb m p a =
      |auth_sep m p + (m.speed - p.speed) * (1 / 10) - auth_target m p a| := by
    rw [auth_future_orb, auth_future_sep, ns_of_mem _ h3 h4]
  have hcd : deriv_current_dist m.longitude p.longitude a = auth_current_orb m p a := by
    rw [deriv_current_dist, hd1, hd2, auth_current_orb]
  refine ⟨by rw [auth_future_orb, auth_future_sep], hfd, by rw [hfd, hfo], ?_, ?_⟩
  · rw [derivative_method_applying, calculate_authoritative_applying, hcd, hfd, hfo]
  · rw [analyze_current_system_logic]
    by_cases hf : |m.speed| > |p.speed|
    · left
      rw [if_pos hf]
    · right
      rw [if_neg hf]

/-- Witness for C5 at a concrete wrap-free input. -/
theorem c5_witness :
    ((-180 : ℚ) ≤ auth_sep ⟨100, 5⟩ ⟨50, 1⟩ + ((5 : ℚ) - 1) * (1 / 10) ∧
     auth_sep ⟨100, 5⟩ ⟨50, 1⟩ + ((5 : ℚ) - 1) * (1 / 10) ≤ 180) ∧
    (auth_future_orb ⟨100, 5⟩ ⟨50, 1⟩ 60 =
      |normalizeSigned (auth_sep ⟨100, 5⟩ ⟨50, 1⟩ + ((5 : ℚ) - 1) * (1 / 10)) -
        auth_target ⟨100, 5⟩ ⟨50, 1⟩ 60| ∧
     deriv_future_dist 100 50 5 1 60 =
      |auth_sep ⟨100, 5⟩ ⟨50, 1⟩ + ((5 : ℚ) - 1) * (1 / 10) - auth_target ⟨100, 5⟩ ⟨50, 1⟩ 60| ∧
     deriv_future_dist 100 50 5 1 60 = auth_future_orb ⟨100, 5⟩ ⟨50, 1⟩ 60 ∧
     derivative_method_applying 100 50 5 1 60 = calculate_authoritative_applying ⟨100, 5⟩ ⟨50, 1⟩ 60 ∧
     (analyze_current_system_logic 100 50 5 1 60 = calculate_authoritative_applying ⟨100, 5⟩ ⟨50, 1⟩ 60 ∨
      analyze_current_system_logic 100 50 5 1 60 =
        calculate_authoritative_applying ⟨50, 1⟩ ⟨100, 5⟩ 60)) := by
  have hsep : auth_sep ⟨(100 : ℚ), 5⟩ ⟨50, 1⟩ = 100 - 50 :=
    ns_of_mem ((100 : ℚ) - 50) (by norm_num) (by norm_num)
  have h3 : (-180 : ℚ) ≤ auth_sep ⟨100, 5⟩ ⟨50, 1⟩ + ((5 : ℚ) - 1) * (1 / 10) := by
    rw [hsep]
    norm_num
  have h4 : auth_sep ⟨(100 : ℚ), 5⟩ ⟨50, 1⟩ + ((5 : ℚ) - 1) * (1 / 10) ≤ 180 := by
    rw [hsep]
    norm_num
  exact ⟨⟨h3, h4⟩, c5_projected_orb_formula ⟨100, 5⟩ ⟨50, 1⟩ 60 h3 h4⟩

/-- Claim C6, counterexample: at separation exactly 0 the two distinct targets
60 and -60 are equally distant, and the code (Python min over the candidate
list) returns 60, the first list entry, whose sign does not equal the sign of
the zero separation - so the tie is not broken by sign preference. -/
theorem c6_tie_at_zero_separation :
    closest_target 0 (targets 60) = 60 ∧
    (60 : ℚ) ∈ targets 60 ∧ (-60 : ℚ) ∈ targets 60 ∧ ((60 : ℚ) ≠ -60) ∧
    |(0 : ℚ) - 60| = |(0 : ℚ) - (-60)| ∧
    sgn3 (closest_target 0 (targets 60)) ≠ sgn3 0 := by
  have hct : closest_target 0 (targets 60) = 60 := by
    rw [closest_eq 0 60 (by norm_num) (by norm_num) (by norm_num) (by norm_num),
      if_neg (by norm_num)]
  have hmem : targets 60 = [60, -60, -300, 300] := by
    rw [targets_of_ne 60 (by norm_num) (by norm_num)]
    norm_num
  refine ⟨hct, by rw [hmem]; simp, by rw [hmem]; simp, by norm_num,
    by norm_num [abs_of_nonpos, abs_of_nonneg], ?_⟩
  rw [hct, sgn3_pos (by norm_num), sgn3_zero]
  norm_num

/-- Claim C6 (amended): closestTarget minimizes the absolute difference over
the candidate list, and for a normalized separation it always returns -d when
the separation is negative and d otherwise; for nonzero separation and a
nondegenerate aspect the returned target therefore has the same sign as the
separation, but at separation exactly 0 the Python min returns the first list
entry d, which is not sign-matched - the tie-break is list order, not a sign
rule. -/
theorem c6_closest_target_minimizes (s a : ℚ) (hs1 : -180 ≤ s) (hs2 : s ≤ 180)
    (ha1 : 0 ≤ a) (ha2 : a ≤ 180) :
    (∀ t ∈ targets a, |s - closest_target s (targets a)| ≤ |s - t|) ∧
    closest_target s (targets a) = (if s < 0 then -a else a) ∧
    (s ≠ 0 → 0 < a → sgn3 (closest_target s (targets a)) = sgn3 s) := by
  have hform : targets a = [a, -a, a - 360, -a + 360] ∨ targets a = [a, -a] := by
    rw [targets]
    by_cases hcond : a ≠ 0 ∧ a ≠ 180
    · left
      rw [if_pos hcond]
    · right
      rw [if_neg hcond]
  have hmin : ∀ t ∈ targets a, |s - closest_target s (targets a)| ≤ |s - t| := by
    intro t ht
    rcases hform with hf | hf
    · rw [hf] at ht ⊢
      exact closest_target_min s a _ t ht
    · rw [hf] at ht ⊢
      exact closest_target_min s a _ t ht
  have hct := closest_eq s a hs1 hs2 ha1 ha2
  refine ⟨hmin, hct, ?_⟩
  intro hs0 hA
  rw [hct]
  rcases lt_trichotomy s 0 with h | h | h
  · rw [if_pos h, sgn3_neg (by linarith : -a < 0), sgn3_neg h]
  · exact absurd h hs0
  · rw [if_neg (by linarith : ¬(s < 0)), sgn3_pos hA, sgn3_pos h]

/-- Witness for C6 at separation -30 and aspect 60. -/
theorem c6_witness :
    ((-180 : ℚ) ≤ -30 ∧ (-30 : ℚ) ≤ 180 ∧ (0 : ℚ) ≤ 60 ∧ (60 : ℚ) ≤ 180 ∧
     ((-30 : ℚ) ≠ 0) ∧ ((0 : ℚ) < 60)) ∧
    closest_target (-30) (targets 60) = (if (-30 : ℚ) < 0 then -(60 : ℚ) else 60) ∧
    sgn3 (closest_target (-30) (targets 60)) = sgn3 (-30) := by
  have hmain := c6_closest_target_minimizes (-30) 60 (by norm_num) (by norm_num)
    (by norm_num) (by norm_num)
  exact ⟨⟨by norm_num, by norm_num, by norm_num, by norm_num, by norm_num, by norm_num⟩,
    hmain.2.1, hmain.2.2 (by norm_num) (by norm_num)⟩

theorem applying_false_of_orb_zero (m p : PlanetPos) (a : ℚ)
    (h : auth_current_orb m p a = 0) : calculate_authoritative_applying m p a = false := by
  rw [calculate_authoritative_applying, h, decide_eq_false_iff_not, auth_future_orb]
  exact not_lt.mpr (abs_nonneg _)

theorem applying_false_of_zero_speed (m p : PlanetPos) (a : ℚ) (h : m.speed - p.speed = 0) :
    calculate_authoritative_applying m p a = false := by
  have hfs : auth_future_sep m p = auth_sep m p := by
    rw [auth_future_sep, h, zero_mul, add_zero]
    exact ns_of_mem _ (ns_ge _) (ns_le _)
  rw [calculate_authoritative_applying, auth_future_orb, hfs, decide_eq_false_iff_not,
    auth_current_orb]
  exact lt_irrefl _

/-- Claim C7: when the current signed separation equals the closest target
exactly (current orb 0), every classification variant returns the
deterministic boolean false, and the reported current orb is 0; the strict
comparison of a nonnegative projected orb against 0 can never hold. -/
theorem c7_exact_orb_not_applying (m p : PlanetPos) (a : ℚ)
    (h1 : auth_current_orb m p a = 0) (h2 : auth_current_orb p m a = 0)
    (h3 : deriv_current_dist m.longitude p.longitude a = 0) :
    auth_current_orb m p a = 0 ∧
    calculate_authoritative_applying m p a = false ∧
    analyze_current_system_logic m.longitude p.longitude m.speed p.speed a = false ∧
    derivative_method_applying m.longitude p.longitude m.speed p.speed a = false := by
  refine ⟨h1, applying_false_of_orb_zero m p a h1, ?_, ?_⟩
  · rw [analyze_current_system_logic]
    by_cases hf : |m.speed| > |p.speed|
    · rw [if_pos hf]
      exact applying_false_of_orb_zero m p a h1
    · rw [if_neg hf]
      exact applying_false_of_orb_zero p m a h2
  · rw [derivative_method_applying, h3, decide_eq_false_iff_not, deriv_future_dist]
    exact not_lt.mpr (abs_nonneg _)

/-- Witness for C7: separation exactly 60 with a sextile aspect. -/
theorem c7_witness :
    (auth_current_orb ⟨60, 5⟩ ⟨0, 1⟩ 60 = 0 ∧
     auth_current_orb ⟨0, 1⟩ ⟨60, 5⟩ 60 = 0 ∧
     deriv_current_dist 60 0 60 = 0) ∧
    (auth_current_orb ⟨60, 5⟩ ⟨0, 1⟩ 60 = 0 ∧
     calculate_authoritative_applying ⟨60, 5⟩ ⟨0, 1⟩ 60 = false ∧
     analyze_current_system_logic 60 0 5 1 60 = false ∧
     derivative_method_applying 60 0 5 1 60 = false) := by
  obtain ⟨hsep, htgt, hfut, happ⟩ :=
    auth_eval 60 0 5 1 60 (by norm_num) (by norm_num) (by norm_num) (by norm_num)
      (by norm_num) (by norm_num)
  obtain ⟨hsep2, htgt2, hfut2, happ2⟩ :=
    auth_eval 0 60 1 5 60 (by norm_num) (by norm_num) (by norm_num) (by norm_num)
      (by norm_num) (by norm_num)
  obtain ⟨hdsep, hdtgt, hdapp⟩ :=
    deriv_eval 60 0 5 1 60 (by norm_num) (by norm_num) (by norm_num) (by norm_num)
  have h1 : auth_current_orb ⟨(60 : ℚ), 5⟩ ⟨0, 1⟩ 60 = 0 := by
    rw [auth_current_orb, hsep, htgt, if_neg (by norm_num : ¬((60 : ℚ) - 0 < 0))]
    norm_num
  have h2 : auth_current_orb ⟨(0 : ℚ), 1⟩ ⟨60, 5⟩ 60 = 0 := by
    rw [auth_current_orb, hsep2, htgt2, if_pos (by norm_num : (0 : ℚ) - 60 < 0)]
    norm_num
  have h3 : deriv_current_dist 60 0 60 = 0 := by
    rw [deriv_current_dist, hdsep, hdtgt, if_neg (by norm_num : ¬((60 : ℚ) - 0 < 0))]
    norm_num
  exact ⟨⟨h1, h2, h3⟩, c7_exact_orb_not_applying ⟨60, 5⟩ ⟨0, 1⟩ 60 h1 h2 h3⟩

/-- Claim C8: whenever the relative speed is exactly zero, in particular when
both speeds are zero, every classification variant returns applying = false:
the projected separation equals the current one, so the strict orb decrease
test fails. -/
theorem c8_zero_relative_speed_not_applying (m p : PlanetPos) (a : ℚ)
    (h : m.speed - p.speed = 0) :
    calculate_authoritative_applying m p a = false ∧
    analyze_current_system_logic m.longitude p.longitude m.speed p.speed a = false ∧
    derivative_method_applying m.longitude p.longitude m.speed p.speed a = false := by
  refine ⟨applying_false_of_zero_speed m p a h, ?_, ?_⟩
  · rw [analyze_current_system_logic]
    by_cases hf : |m.speed| > |p.speed|
    · rw [if_pos hf]
      exact applying_false_of_zero_speed m p a h
    · rw [if_neg hf]
      exact applying_false_of_zero_speed p m a (by linarith)
  · rw [derivative_method_applying, decide_eq_false_iff_not, deriv_future_dist, h, zero_mul,
      add_zero, deriv_current_dist]
    exact lt_irrefl _

/-- Witness for C8: both bodies at speed 0. -/
theorem c8_witness :
    ((0 : ℚ) - 0 = 0) ∧
    (calculate_authoritative_applying ⟨10, 0⟩ ⟨40, 0⟩ 90 = false ∧
     analyze_current_system_logic 10 40 0 0 90 = false ∧
     derivative_method_applying 10 40 0 0 90 = false) :=
  ⟨by norm_num, c8_zero_relative_speed_not_applying ⟨10, 0⟩ ⟨40, 0⟩ 90
    (by show (0 : ℚ) - 0 = 0; norm_num)⟩

/-- Claim C9: on Scenario 1 (lead 299.5956 degrees at +11.9326 degrees per
day, other 216.6997 degrees at +1.1759 degrees per day, trine) the signed
separation is within 0.01 of 82.90, the closest target is 120, the current
orb is within 0.01 of 37.10, the projected orb is within 0.01 of 36.02, and
both the authoritative and the enhanced classification return applying =
true. -/
theorem c9_scenario1_trine_applying :
    |auth_sep ⟨299.5956, 11.9326⟩ ⟨216.6997, 1.1759⟩ - 82.90| < 1 / 100 ∧
    auth_target ⟨299.5956, 11.9326⟩ ⟨216.6997, 1.1759⟩ 120 = 120 ∧
    |auth_current_orb ⟨299.5956, 11.9326⟩ ⟨216.6997, 1.1759⟩ 120 - 37.10| < 1 / 100 ∧
    |auth_future_orb ⟨299.5956, 11.9326⟩ ⟨216.6997, 1.1759⟩ 120 - 36.02| < 1 / 100 ∧
    calculate_authoritative_applying ⟨299.5956, 11.9326⟩ ⟨216.6997, 1.1759⟩ 120 = true ∧
    analyze_current_system_logic 299.5956 216.6997 11.9326 1.1759 120 = true := by
  have hsep : auth_sep ⟨(299.5956 : ℚ), 11.9326⟩ ⟨216.6997, 1.1759⟩ = 82.8959 := by
    show normalizeSigned ((299.5956 : ℚ) - 216.6997) = 82.8959
    rw [show (299.5956 : ℚ) - 216.6997 = 82.8959 by norm_num]
    exact ns_of_mem _ (by norm_num) (by norm_num)
  have htgt : auth_target ⟨(299.5956 : ℚ), 11.9326⟩ ⟨216.6997, 1.1759⟩ 120 = 120 := by
    rw [auth_target, hsep,
      closest_eq (82.8959 : ℚ) 120 (by norm_num) (by norm_num) (by norm_num) (by norm_num),
      if_neg (by norm_num)]
  have hcorb : auth_current_orb ⟨(299.5956 : ℚ), 11.9326⟩ ⟨216.6997, 1.1759⟩ 120 = 37.1041 := by
    rw [auth_current_orb, hsep, htgt]
    norm_num [abs_of_nonpos]
  have hfs : auth_future_sep ⟨(299.5956 : ℚ), 11.9326⟩ ⟨216.6997, 1.1759⟩ = 83.97157 := by
    rw [auth_future_sep, hsep]
    show normalizeSigned ((82.8959 : ℚ) + ((11.9326 : ℚ) - 1.1759) * (1 / 10)) = 83.97157
    rw [show (82.8959 : ℚ) + ((11.9326 : ℚ) - 1.1759) * (1 / 10) = 83.97157 by norm_num]
    exact ns_of_mem _ (by norm_num) (by norm_num)
  have hforb : auth_future_orb ⟨(299.5956 : ℚ), 11.9326⟩ ⟨216.6997, 1.1759⟩ 120 = 36.02843 := by
    rw [auth_future_orb, hfs, htgt]
    norm_num [abs_of_nonpos]
  have happ : calculate_authoritative_applying ⟨(299.5956 : ℚ), 11.9326⟩ ⟨216.6997, 1.1759⟩ 120 =
      true := by
    rw [calculate_authoritative_applying, hforb, hcorb, decide_eq_true_eq]
    norm_num
  refine ⟨?_, htgt, ?_, ?_, happ, ?_⟩
  · rw [hsep]
    norm_num [abs_of_nonpos]
  · rw [hcorb]
    norm_num [abs_of_nonneg]
  · rw [hforb]
    norm_num [abs_of_nonneg]
  · rw [analyze_current_system_logic,
      if_pos (by norm_num [abs_of_nonneg] : |(11.9326 : ℚ)| > |(1.1759 : ℚ)|)]
    exact happ

theorem stepLoop1_reaches (x : ℚ) : ∃ n : ℕ, stepLoop1 n x = some (normLoop1 x) := by
  induction x using normLoop1.induct with
  | case1 x h ih =>
    obtain ⟨n, hn⟩ := ih
    have hre : normLoop1 x = normLoop1 (x - 360) := by rw [normLoop1, if_pos h]
    refine ⟨n + 1, ?_⟩
    rw [stepLoop1, if_pos h, hn, ← hre]
  | case2 x h =>
    refine ⟨0, ?_⟩
    rw [stepLoop1, if_neg h, normLoop1, if_neg h]

theorem stepLoop2_reaches (x : ℚ) : ∃ n : ℕ, stepLoop2 n x = some (normLoop2 x) := by
  induction x using normLoop2.induct with
  | case1 x h ih =>
    obtain ⟨n, hn⟩ := ih
    have hre : normLoop2 x = normLoop2 (x + 360) := by rw [normLoop2, if_pos h]
    refine ⟨n + 1, ?_⟩
    rw [stepLoop2, if_pos h, hn, ← hre]
  | case2 x h =>
    refine ⟨0, ?_⟩
    rw [stepLoop2, if_neg h, normLoop2, if_neg h]

/-- Claim C10: both normalization while loops terminate on every exact
rational input - some finite fuel reproduces their value - so the
normalization and all three classification functions are total and return a
boolean on every input. -/
theorem c10_normalization_loops_terminate :
    (∀ x : ℚ, ∃ n : ℕ, stepLoop1 n x = some (normLoop1 x)) ∧
    (∀ x : ℚ, ∃ n : ℕ, stepLoop2 n (normLoop1 x) = some (normalizeSigned x)) ∧
    (∀ (m p : PlanetPos) (a : ℚ), calculate_authoritative_applying m p a = true ∨
      calculate_authoritative_applying m p a = false) ∧
    (∀ ml pl ms ps a : ℚ, analyze_current_system_logic ml pl ms ps a = true ∨
      analyze_current_system_logic ml pl ms ps a = false) ∧
    (∀ ml pl ms ps a : ℚ, derivative_method_applying ml pl ms ps a = true ∨
      derivative_method_applying ml pl ms ps a = false) := by
  refine ⟨stepLoop1_reaches, fun x => stepLoop2_reaches (normLoop1 x), ?_, ?_, ?_⟩
  · intro m p a
    exact Bool.eq_false_or_eq_true _
  · intro ml pl ms ps a
    exact Bool.eq_false_or_eq_true _
  · intro ml pl ms ps a
    exact Bool.eq_false_or_eq_true _
